import Mathlib

/-!
Verification of the QCNN tutorial notebook (`tutorials/qcnn.ipynb`).

The notebook builds an 8-qubit quantum convolutional neural network with
PennyLane: amplitude embedding of a 256-dimensional feature vector, three
convolution layers made of the 15-parameter two-qubit block `U_SU4`, a
Pauli-Z expectation on wire 4, a mean-squared-error loss and an accuracy
test.  This file embeds those functions shallowly:

* the circuit-construction functions (`U_SU4`, `conv_layer1`..`conv_layer3`,
  `QCNN_structure_without_pooling`) become functions producing lists of
  `Gate` values, mirroring the order in which the notebook queues
  PennyLane operations;
* the quantum semantics of the PennyLane operations (state vectors,
  gate matrices, amplitude embedding, expectation values) is modelled by
  matrices over `ℂ` indexed by bit assignments `Fin 8 → Fin 2`, using the
  standard textbook matrices that PennyLane documents for `U3`, `RY`,
  `RZ` and `CNOT`;
* `square_loss`, `cost` and `accuracy_test` become Lean functions on
  lists; the Python divisions that raise `ZeroDivisionError` on empty
  input are modelled with `Option`.
-/

open scoped Matrix
open scoped ComplexConjugate

/-! ### Circuit syntax: gates queued by the notebook -/

/-- A single PennyLane operation queued by the notebook's circuit
functions.  Wire labels are natural numbers, as in the Python source. -/
inductive Gate : Type
  | U3 (theta phi delta : ℝ) (wire : ℕ)
  | CNOT (control target : ℕ)
  | RY (theta : ℝ) (wire : ℕ)
  | RZ (theta : ℝ) (wire : ℕ)

/-- The two-qubit block of the notebook (`U_SU4`): the exact sequence of
PennyLane operations queued by `U_SU4(params, wires)` for a 15-entry
parameter vector and an ordered wire pair. -/
def U_SU4 (params : Fin 15 → ℝ) (wires : ℕ × ℕ) : List Gate :=
  [ Gate.U3 (params 0) (params 1) (params 2) wires.1,
    Gate.U3 (params 3) (params 4) (params 5) wires.2,
    Gate.CNOT wires.1 wires.2,
    Gate.RY (params 6) wires.1,
    Gate.RZ (params 7) wires.2,
    Gate.CNOT wires.2 wires.1,
    Gate.RY (params 8) wires.1,
    Gate.CNOT wires.1 wires.2,
    Gate.U3 (params 9) (params 10) (params 11) wires.1,
    Gate.U3 (params 12) (params 13) (params 14) wires.2 ]

/-- First convolution layer (`conv_layer1`): the wraparound pair `(0,7)`,
then the Python loop `for i in range(0, 8, 2)`, then the loop
`for i in range(1, 7, 2)`.  `List.range' 0 4 2 = [0,2,4,6]` and
`List.range' 1 3 2 = [1,3,5]` are the values produced by those ranges. -/
def conv_layer1 (U : (Fin 15 → ℝ) → ℕ × ℕ → List Gate) (params : Fin 15 → ℝ) :
    List Gate :=
  U params (0, 7) ++
    (List.range' 0 4 2).flatMap (fun i => U params (i, i + 1)) ++
    (List.range' 1 3 2).flatMap (fun i => U params (i, i + 1))

/-- Second convolution layer (`conv_layer2`). -/
def conv_layer2 (U : (Fin 15 → ℝ) → ℕ × ℕ → List Gate) (params : Fin 15 → ℝ) :
    List Gate :=
  U params (0, 6) ++ U params (0, 2) ++ U params (4, 6) ++ U params (2, 4)

/-- Third convolution layer (`conv_layer3`). -/
def conv_layer3 (U : (Fin 15 → ℝ) → ℕ × ℕ → List Gate) (params : Fin 15 → ℝ) :
    List Gate :=
  U params (0, 4)

/-- Slice `params[0:15]` of the 45-entry parameter vector. -/
def param1 (params : Fin 45 → ℝ) : Fin 15 → ℝ :=
  fun i => params ⟨i.val, by have := i.isLt; omega⟩

/-- Slice `params[15:30]` of the 45-entry parameter vector. -/
def param2 (params : Fin 45 → ℝ) : Fin 15 → ℝ :=
  fun i => params ⟨15 + i.val, by have := i.isLt; omega⟩

/-- Slice `params[30:45]` of the 45-entry parameter vector. -/
def param3 (params : Fin 45 → ℝ) : Fin 15 → ℝ :=
  fun i => params ⟨30 + i.val, by have := i.isLt; omega⟩

/-- The full ansatz (`QCNN_structure_without_pooling`): the three
convolution layers applied in order, each on its contiguous slice of the
45-entry parameter vector. -/
def QCNN_structure_without_pooling (U : (Fin 15 → ℝ) → ℕ × ℕ → List Gate)
    (params : Fin 45 → ℝ) : List Gate :=
  conv_layer1 U (param1 params) ++ conv_layer2 U (param2 params) ++
    conv_layer3 U (param3 params)

/-- Helper: the ansatz unfolded to the explicit sequence of block
applications, shared by several proofs below. -/
theorem QCNN_structure_expand (U : (Fin 15 → ℝ) → ℕ × ℕ → List Gate)
    (params : Fin 45 → ℝ) :
    QCNN_structure_without_pooling U params =
      U (param1 params) (0, 7) ++ U (param1 params) (0, 1) ++
      U (param1 params) (2, 3) ++ U (param1 params) (4, 5) ++
      U (param1 params) (6, 7) ++ U (param1 params) (1, 2) ++
      U (param1 params) (3, 4) ++ U (param1 params) (5, 6) ++
      U (param2 params) (0, 6) ++ U (param2 params) (0, 2) ++
      U (param2 params) (4, 6) ++ U (param2 params) (2, 4) ++
      U (param3 params) (0, 4) := by
  simp [QCNN_structure_without_pooling, conv_layer1, conv_layer2, conv_layer3,
    List.range', List.append_assoc]

/-- C1: the ansatz applies the two-qubit block to exactly the pairs
(0,7),(0,1),(2,3),(4,5),(6,7),(1,2),(3,4),(5,6) with `params[0:15]`, then
(0,6),(0,2),(4,6),(2,4) with `params[15:30]`, then (0,4) with
`params[30:45]`, in exactly that order, for every 45-entry parameter
vector (and every block `U`, in particular `U_SU4`). -/
theorem C1_ansatz_pair_sequence (U : (Fin 15 → ℝ) → ℕ × ℕ → List Gate)
    (params : Fin 45 → ℝ) :
    QCNN_structure_without_pooling U params =
      U (fun i => params ⟨i.val, by have := i.isLt; omega⟩) (0, 7) ++
      U (fun i => params ⟨i.val, by have := i.isLt; omega⟩) (0, 1) ++
      U (fun i => params ⟨i.val, by have := i.isLt; omega⟩) (2, 3) ++
      U (fun i => params ⟨i.val, by have := i.isLt; omega⟩) (4, 5) ++
      U (fun i => params ⟨i.val, by have := i.isLt; omega⟩) (6, 7) ++
      U (fun i => params ⟨i.val, by have := i.isLt; omega⟩) (1, 2) ++
      U (fun i => params ⟨i.val, by have := i.isLt; omega⟩) (3, 4) ++
      U (fun i => params ⟨i.val, by have := i.isLt; omega⟩) (5, 6) ++
      U (fun i => params ⟨15 + i.val, by have := i.isLt; omega⟩) (0, 6) ++
      U (fun i => params ⟨15 + i.val, by have := i.isLt; omega⟩) (0, 2) ++
      U (fun i => params ⟨15 + i.val, by have := i.isLt; omega⟩) (4, 6) ++
      U (fun i => params ⟨15 + i.val, by have := i.isLt; omega⟩) (2, 4) ++
      U (fun i => params ⟨30 + i.val, by have := i.isLt; omega⟩) (0, 4) := by
  rw [QCNN_structure_expand]
  rfl

/-- C2: for every 15-entry parameter vector and ordered target pair, the
two-qubit block is exactly: a 3-parameter `U3` rotation on each target,
`CNOT` from target 0 to target 1, an `RY` on target 0 and an `RZ` on
target 1, `CNOT` from target 1 to target 0, an `RY` on target 0, `CNOT`
from target 0 to target 1, then a 3-parameter `U3` rotation on each
target — 15 parameters in total, a pure function of the parameters and
the target order. -/
theorem C2_U_SU4_gate_sequence (params : Fin 15 → ℝ) (t0 t1 : ℕ) :
    U_SU4 params (t0, t1) =
      [ Gate.U3 (params 0) (params 1) (params 2) t0,
        Gate.U3 (params 3) (params 4) (params 5) t1,
        Gate.CNOT t0 t1,
        Gate.RY (params 6) t0,
        Gate.RZ (params 7) t1,
        Gate.CNOT t1 t0,
        Gate.RY (params 8) t0,
        Gate.CNOT t0 t1,
        Gate.U3 (params 9) (params 10) (params 11) t0,
        Gate.U3 (params 12) (params 13) (params 14) t1 ] :=
  rfl

/-! ### Loss and accuracy -/

/-- The per-example condition of `accuracy_test`: the notebook counts a
(label, prediction) pair as correct when `np.abs(l - p) < 0.5`. -/
def correct (l p : ℝ) : Prop := |l - p| < 0.5

noncomputable instance (l p : ℝ) : Decidable (correct l p) := by
  unfold correct; infer_instance

/-- `square_loss(labels, predictions)`: sums `(l - p) ** 2` over
`zip(labels, predictions)` and divides by `len(labels)`; the division
raises `ZeroDivisionError` on an empty label list, modelled as `none`. -/
noncomputable def square_loss (labels predictions : List ℝ) : Option ℝ :=
  if labels.length = 0 then none
  else some (((labels.zip predictions).foldl
    (fun acc lp => acc + (lp.1 - lp.2) ^ 2) 0) / labels.length)

/-- `accuracy_test(predictions, labels)`: counts the pairs of
`zip(labels, predictions)` with `np.abs(l - p) < 0.5` and divides by
`len(labels)`; the division raises `ZeroDivisionError` on an empty label
list, modelled as `none`. -/
noncomputable def accuracy_test (predictions labels : List ℝ) : Option ℝ :=
  if labels.length = 0 then none
  else some
    ((((labels.zip predictions).foldl
      (fun acc lp => if correct lp.1 lp.2 then acc + 1 else acc) (0 : ℕ) : ℕ) : ℝ)
      / labels.length)

theorem foldl_add_sq (l : List (ℝ × ℝ)) (c : ℝ) :
    l.foldl (fun acc lp => acc + (lp.1 - lp.2) ^ 2) c =
      c + (l.map (fun lp => (lp.1 - lp.2) ^ 2)).sum := by
  induction l generalizing c with
  | nil => simp
  | cons x xs ih => simp [List.foldl_cons, ih, add_assoc]

theorem foldl_count (l : List (ℝ × ℝ)) (n : ℕ) :
    l.foldl (fun acc lp => if correct lp.1 lp.2 then acc + 1 else acc) n =
      n + l.countP (fun lp => decide (correct lp.1 lp.2)) := by
  induction l generalizing n with
  | nil => simp
  | cons x xs ih =>
      by_cases hx : correct x.1 x.2 <;>
        simp [List.foldl_cons, List.countP_cons, hx, ih] <;> omega

/-- C8: on a non-empty label list and an equal-length prediction list
with labels in {0,1}, `accuracy_test` returns the fraction of pairs with
`|l - p| < 0.5`, a real number in [0, 1] (and, being a plain function of
its arguments, it mutates nothing). -/
theorem C8_accuracy_is_fraction (predictions labels : List ℝ)
    (hne : labels ≠ []) (hlen : predictions.length = labels.length)
    (hlab : ∀ l ∈ labels, l = 0 ∨ l = 1) :
    ∃ r, accuracy_test predictions labels = some r ∧
      r = ((labels.zip predictions).countP
            (fun lp => decide (correct lp.1 lp.2)) : ℝ) / labels.length ∧
      0 ≤ r ∧ r ≤ 1 := by
  have hlen0 : labels.length ≠ 0 := by
    simpa using List.length_pos.mpr hne |>.ne'
  refine ⟨_, by rw [accuracy_test, if_neg hlen0, foldl_count, Nat.zero_add], rfl, ?_, ?_⟩
  · positivity
  · rw [div_le_one (by positivity)]
    · have hc : (labels.zip predictions).countP
          (fun lp => decide (correct lp.1 lp.2)) ≤ labels.length := by
        calc (labels.zip predictions).countP (fun lp => decide (correct lp.1 lp.2))
            ≤ (labels.zip predictions).length := List.countP_le_length _
          _ ≤ labels.length := by rw [List.length_zip]; omega
      exact_mod_cast hc

/-- C9: for a prediction in [-1,1], the rule `|l - p| < 0.5` is not a
symmetric midpoint threshold: any p ≤ -0.5 is counted incorrect for both
labels, a label-1 example is correct iff p > 0.5, and a label-0 example
is correct iff -0.5 < p < 0.5. -/
theorem C9_decision_rule (p : ℝ) (hlo : -1 ≤ p) (hhi : p ≤ 1) :
    (p ≤ -0.5 → ¬ correct 0 p ∧ ¬ correct 1 p) ∧
    (correct 1 p ↔ 0.5 < p) ∧
    (correct 0 p ↔ -0.5 < p ∧ p < 0.5) := by
  unfold correct
  refine ⟨fun hp => ⟨fun hc => ?_, fun hc => ?_⟩, ⟨fun hc => ?_, fun hc => ?_⟩,
    ⟨fun hc => ?_, fun hc => ?_⟩⟩ <;>
    rw [abs_lt] at * <;>
    [skip; skip; skip; skip; skip; constructor] <;> try constructor
  all_goals try linarith [hc.1, hc.2]
  all_goals linarith

/-- C10: both `square_loss` and `accuracy_test` divide by the number of
labels, so on an empty label list the division is a `ZeroDivisionError`
(modelled `none`); on a non-empty label list both are defined. -/
theorem C10_division_by_length (predictions labels : List ℝ) :
    square_loss [] predictions = none ∧
    accuracy_test predictions [] = none ∧
    (labels ≠ [] → ∃ r, square_loss labels predictions = some r) ∧
    (labels ≠ [] → ∃ r, accuracy_test predictions labels = some r) := by
  refine ⟨by simp [square_loss], by simp [accuracy_test], fun hne => ?_, fun hne => ?_⟩ <;>
    have hlen0 : labels.length ≠ 0 := by
      simpa using List.length_pos.mpr hne |>.ne'
  · exact ⟨_, by rw [square_loss, if_neg hlen0]⟩
  · exact ⟨_, by rw [accuracy_test, if_neg hlen0]⟩

/-- Witness for C8 at a concrete input: one label `1`, one prediction
`0.6`. -/
theorem C8_accuracy_is_fraction_witness :
    ∃ r, accuracy_test [0.6] [1] = some r ∧
      r = ((([(1 : ℝ)]).zip [(0.6 : ℝ)]).countP
            (fun lp => decide (correct lp.1 lp.2)) : ℝ) / ([(1 : ℝ)]).length ∧
      0 ≤ r ∧ r ≤ 1 :=
  C8_accuracy_is_fraction [0.6] [1] (by simp) (by simp)
    (fun l hl => Or.inr (by simpa using hl))

/-- Witness for C9 at the concrete prediction `0`. -/
theorem C9_decision_rule_witness :
    ((0 : ℝ) ≤ -0.5 → ¬ correct 0 0 ∧ ¬ correct 1 0) ∧
    (correct 1 0 ↔ (0.5 : ℝ) < 0) ∧
    (correct 0 0 ↔ (-0.5 : ℝ) < 0 ∧ (0 : ℝ) < 0.5) :=
  C9_decision_rule 0 (by norm_num) (by norm_num)

/-- Witness for C10 at concrete inputs: the empty and the one-element
label list. -/
theorem C10_division_by_length_witness :
    square_loss [] [(0.2 : ℝ)] = none ∧
    (∃ r, square_loss [(1 : ℝ)] [(0.2 : ℝ)] = some r) ∧
    (∃ r, accuracy_test [(0.2 : ℝ)] [(1 : ℝ)] = some r) :=
  ⟨(C10_division_by_length [(0.2 : ℝ)] [(1 : ℝ)]).1,
    (C10_division_by_length [(0.2 : ℝ)] [(1 : ℝ)]).2.2.1 (by simp),
    (C10_division_by_length [(0.2 : ℝ)] [(1 : ℝ)]).2.2.2 (by simp)⟩

/-! ### State-vector semantics

The PennyLane device `default.qubit` with 8 wires holds a complex state
vector over the 2^8 computational basis states.  A basis state is one bit
per wire, `Fin 8 → Fin 2`.  A gate on one or two wires acts as a matrix
over this index type that touches only the targeted bits. -/

/-- A computational-basis label of the 8-wire register: one bit per wire. -/
abbrev Bits : Type := Fin 8 → Fin 2

/-- Squared-magnitude sum of a state vector. -/
noncomputable def sumNormSq (v : Bits → ℂ) : ℝ :=
  ∑ f : Bits, Complex.normSq (v f)

/-- Two basis labels agree on every wire other than `a`. -/
def agree1 (a : Fin 8) (f g : Bits) : Prop := ∀ k, k ≠ a → f k = g k

/-- Two basis labels agree on every wire other than `a` and `b`. -/
def agree2 (a b : Fin 8) (f g : Bits) : Prop := ∀ k, k ≠ a → k ≠ b → f k = g k

noncomputable instance (a : Fin 8) (f g : Bits) : Decidable (agree1 a f g) := by
  unfold agree1; infer_instance

noncomputable instance (a b : Fin 8) (f g : Bits) : Decidable (agree2 a b f g) := by
  unfold agree2; infer_instance

/-- The lift of a single-qubit matrix `A` to the 8-wire register, acting
on wire `a`: entries vanish unless all other bits agree. -/
noncomputable def oneQ (a : Fin 8) (A : Matrix (Fin 2) (Fin 2) ℂ) :
    Matrix Bits Bits ℂ :=
  Matrix.of fun f g => if agree1 a f g then A (f a) (g a) else 0

/-- The lift of a two-qubit matrix `U` (first index component = wire `a`,
second = wire `b`) to the 8-wire register. -/
noncomputable def twoQ (a b : Fin 8) (U : Matrix (Fin 2 × Fin 2) (Fin 2 × Fin 2) ℂ) :
    Matrix Bits Bits ℂ :=
  Matrix.of fun f g => if agree2 a b f g then U (f a, f b) (g a, g b) else 0

theorem agree1_symm {a : Fin 8} {f g : Bits} (h : agree1 a f g) : agree1 a g f :=
  fun k hk => (h k hk).symm

theorem agree2_symm {a b : Fin 8} {f g : Bits} (h : agree2 a b f g) :
    agree2 a b g f :=
  fun k hka hkb => (h k hka hkb).symm

theorem agree1_update_right (a : Fin 8) (f : Bits) (x : Fin 2) :
    agree1 a f (Function.update f a x) :=
  fun k hk => (Function.update_noteq hk x f).symm

theorem agree1_update_left_iff (a : Fin 8) (f g : Bits) (x : Fin 2) :
    agree1 a (Function.update f a x) g ↔ agree1 a f g := by
  constructor
  · intro h k hk
    rw [← h k hk, Function.update_noteq hk]
  · intro h k hk
    rw [Function.update_noteq hk]
    exact h k hk

theorem sum_update_one (a : Fin 8) (f : Bits) (T : Bits → ℂ)
    (h0 : ∀ h : Bits, ¬ agree1 a f h → T h = 0) :
    ∑ h : Bits, T h = ∑ x : Fin 2, T (Function.update f a x) := by
  have key : ∀ h : Bits, T h =
      ∑ x : Fin 2, if h = Function.update f a x then T (Function.update f a x) else 0 := by
    intro h
    by_cases hc : agree1 a f h
    · have hu : h = Function.update f a (h a) := by
        funext k
        by_cases hk : k = a
        · subst hk; simp
        · rw [Function.update_noteq hk]
          exact (hc k hk).symm
      have step : ∀ x : Fin 2,
          (if h = Function.update f a x then T (Function.update f a x) else 0) =
            (if x = h a then T h else 0) := by
        intro x
        by_cases hx : h = Function.update f a x
        · have hxa : x = h a := by rw [hx]; simp
          rw [if_pos hx, if_pos hxa, ← hx]
        · have hxa : ¬ x = h a := fun hcon => hx (by rw [hcon]; exact hu)
          rw [if_neg hx, if_neg hxa]
      rw [Finset.sum_congr rfl (fun x _ => step x)]
      simp
    · rw [h0 h hc]
      symm
      apply Finset.sum_eq_zero
      intro x _
      have hx : ¬ (h = Function.update f a x) := by
        intro hcon
        apply hc
        intro k hk
        rw [hcon, Function.update_noteq hk]
      rw [if_neg hx]
  calc ∑ h : Bits, T h
      = ∑ h : Bits, ∑ x : Fin 2,
          if h = Function.update f a x then T (Function.update f a x) else 0 :=
        Finset.sum_congr rfl (fun h _ => key h)
    _ = ∑ x : Fin 2, ∑ h : Bits,
          if h = Function.update f a x then T (Function.update f a x) else 0 :=
        Finset.sum_comm
    _ = ∑ x : Fin 2, T (Function.update f a x) := by
        apply Finset.sum_congr rfl
        intro x _
        simp

/-- Writing both targeted bits of a basis label at once. -/
def upd2 (f : Bits) (a b : Fin 8) (p : Fin 2 × Fin 2) : Bits :=
  Function.update (Function.update f a p.1) b p.2

theorem upd2_at_a {f : Bits} {a b : Fin 8} (hab : a ≠ b) (p : Fin 2 × Fin 2) :
    upd2 f a b p a = p.1 := by
  unfold upd2
  rw [Function.update_noteq hab, Function.update_same]

theorem upd2_at_b {f : Bits} {a b : Fin 8} (p : Fin 2 × Fin 2) :
    upd2 f a b p b = p.2 := by
  unfold upd2
  rw [Function.update_same]

theorem upd2_other {f : Bits} {a b : Fin 8} {k : Fin 8} (p : Fin 2 × Fin 2)
    (hka : k ≠ a) (hkb : k ≠ b) : upd2 f a b p k = f k := by
  unfold upd2
  rw [Function.update_noteq hkb, Function.update_noteq hka]

theorem agree2_upd2_right (a b : Fin 8) (f : Bits) (p : Fin 2 × Fin 2) :
    agree2 a b f (upd2 f a b p) :=
  fun k hka hkb => (upd2_other p hka hkb).symm

theorem agree2_upd2_left_iff (a b : Fin 8) (f g : Bits) (p : Fin 2 × Fin 2) :
    agree2 a b (upd2 f a b p) g ↔ agree2 a b f g := by
  constructor
  · intro h k hka hkb
    rw [← h k hka hkb, upd2_other p hka hkb]
  · intro h k hka hkb
    rw [upd2_other p hka hkb]
    exact h k hka hkb

theorem sum_update_two (a b : Fin 8) (hab : a ≠ b) (f : Bits) (T : Bits → ℂ)
    (h0 : ∀ h : Bits, ¬ agree2 a b f h → T h = 0) :
    ∑ h : Bits, T h = ∑ p : Fin 2 × Fin 2, T (upd2 f a b p) := by
  have key : ∀ h : Bits, T h =
      ∑ p : Fin 2 × Fin 2, if h = upd2 f a b p then T (upd2 f a b p) else 0 := by
    intro h
    by_cases hc : agree2 a b f h
    · have hu : h = upd2 f a b (h a, h b) := by
        funext k
        by_cases hka : k = a
        · subst hka; rw [upd2_at_a hab]
        · by_cases hkb : k = b
          · subst hkb; rw [upd2_at_b]
          · rw [upd2_other _ hka hkb]
            exact (hc k hka hkb).symm
      have step : ∀ p : Fin 2 × Fin 2,
          (if h = upd2 f a b p then T (upd2 f a b p) else 0) =
            (if p = (h a, h b) then T h else 0) := by
        intro p
        by_cases hx : h = upd2 f a b p
        · have hxa : p = (h a, h b) := by
            rw [hx, upd2_at_a hab, upd2_at_b]
          rw [if_pos hx, if_pos hxa, ← hx]
        · have hxa : ¬ p = (h a, h b) := fun hcon => hx (by rw [hcon]; exact hu)
          rw [if_neg hx, if_neg hxa]
      rw [Finset.sum_congr rfl (fun p _ => step p)]
      simp
    · rw [h0 h hc]
      symm
      apply Finset.sum_eq_zero
      intro p _
      have hx : ¬ (h = upd2 f a b p) := by
        intro hcon
        apply hc
        intro k hka hkb
        rw [hcon, upd2_other _ hka hkb]
      rw [if_neg hx]
  calc ∑ h : Bits, T h
      = ∑ h : Bits, ∑ p : Fin 2 × Fin 2,
          if h = upd2 f a b p then T (upd2 f a b p) else 0 :=
        Finset.sum_congr rfl (fun h _ => key h)
    _ = ∑ p : Fin 2 × Fin 2, ∑ h : Bits,
          if h = upd2 f a b p then T (upd2 f a b p) else 0 :=
        Finset.sum_comm
    _ = ∑ p : Fin 2 × Fin 2, T (upd2 f a b p) := by
        apply Finset.sum_congr rfl
        intro p _
        simp

theorem agree1_refl (a : Fin 8) (f : Bits) : agree1 a f f :=
  fun k _ => rfl

theorem agree2_refl (a b : Fin 8) (f : Bits) : agree2 a b f f :=
  fun k _ _ => rfl

theorem oneQ_mul (a : Fin 8) (A B : Matrix (Fin 2) (Fin 2) ℂ) :
    oneQ a A * oneQ a B = oneQ a (A * B) := by
  ext f g
  rw [Matrix.mul_apply,
    sum_update_one a f (fun h => oneQ a A f h * oneQ a B h g)
      (fun h hc => by simp only [oneQ, Matrix.of_apply, if_neg hc, zero_mul])]
  simp only [oneQ, Matrix.of_apply, agree1_update_right, if_true,
    agree1_update_left_iff, Function.update_same]
  by_cases hc : agree1 a f g
  · simp only [hc, if_true, Matrix.mul_apply]
  · simp only [hc, if_false, mul_zero, Finset.sum_const_zero]

theorem oneQ_star (a : Fin 8) (A : Matrix (Fin 2) (Fin 2) ℂ) :
    (oneQ a A)ᴴ = oneQ a Aᴴ := by
  ext f g
  rw [Matrix.conjTranspose_apply]
  by_cases hc : agree1 a f g
  · simp only [oneQ, Matrix.of_apply, hc, agree1_symm hc, if_true,
      Matrix.conjTranspose_apply]
  · have hc' : ¬ agree1 a g f := fun h => hc (agree1_symm h)
    simp only [oneQ, Matrix.of_apply, hc, hc', if_false, star_zero]

theorem oneQ_one (a : Fin 8) : oneQ a (1 : Matrix (Fin 2) (Fin 2) ℂ) = 1 := by
  ext f g
  by_cases hfg : f = g
  · subst hfg
    simp only [oneQ, Matrix.of_apply, agree1_refl, if_true, Matrix.one_apply_eq]
  · rw [Matrix.one_apply_ne hfg]
    by_cases hoff : agree1 a f g
    · have ha : f a ≠ g a := by
        intro ha
        apply hfg
        funext k
        by_cases hk : k = a
        · subst hk; exact ha
        · exact hoff k hk
      simp only [oneQ, Matrix.of_apply, hoff, if_true, Matrix.one_apply_ne ha]
    · simp only [oneQ, Matrix.of_apply, hoff, if_false]

theorem oneQ_unitary (a : Fin 8) (A : Matrix (Fin 2) (Fin 2) ℂ)
    (hA : Aᴴ * A = 1) : (oneQ a A)ᴴ * oneQ a A = 1 := by
  rw [oneQ_star, oneQ_mul, hA, oneQ_one]

theorem twoQ_mul (a b : Fin 8) (hab : a ≠ b)
    (U V : Matrix (Fin 2 × Fin 2) (Fin 2 × Fin 2) ℂ) :
    twoQ a b U * twoQ a b V = twoQ a b (U * V) := by
  ext f g
  rw [Matrix.mul_apply,
    sum_update_two a b hab f (fun h => twoQ a b U f h * twoQ a b V h g)
      (fun h hc => by simp only [twoQ, Matrix.of_apply, if_neg hc, zero_mul])]
  simp only [twoQ, Matrix.of_apply, agree2_upd2_right, if_true,
    agree2_upd2_left_iff, upd2_at_a hab, upd2_at_b, Prod.mk.eta]
  by_cases hc : agree2 a b f g
  · simp only [hc, if_true, Matrix.mul_apply]
  · simp only [hc, if_false, mul_zero, Finset.sum_const_zero]

theorem twoQ_star (a b : Fin 8) (U : Matrix (Fin 2 × Fin 2) (Fin 2 × Fin 2) ℂ) :
    (twoQ a b U)ᴴ = twoQ a b Uᴴ := by
  ext f g
  rw [Matrix.conjTranspose_apply]
  by_cases hc : agree2 a b f g
  · simp only [twoQ, Matrix.of_apply, hc, agree2_symm hc, if_true,
      Matrix.conjTranspose_apply]
  · have hc' : ¬ agree2 a b g f := fun h => hc (agree2_symm h)
    simp only [twoQ, Matrix.of_apply, hc, hc', if_false, star_zero]

theorem twoQ_one (a b : Fin 8) :
    twoQ a b (1 : Matrix (Fin 2 × Fin 2) (Fin 2 × Fin 2) ℂ) = 1 := by
  ext f g
  by_cases hfg : f = g
  · subst hfg
    simp only [twoQ, Matrix.of_apply, agree2_refl, if_true, Matrix.one_apply_eq]
  · rw [Matrix.one_apply_ne hfg]
    by_cases hoff : agree2 a b f g
    · have ha : (f a, f b) ≠ (g a, g b) := by
        intro ha
        apply hfg
        funext k
        by_cases hka : k = a
        · subst hka
          exact congrArg Prod.fst ha
        · by_cases hkb : k = b
          · subst hkb
            exact congrArg Prod.snd ha
          · exact hoff k hka hkb
      simp only [twoQ, Matrix.of_apply, hoff, if_true, Matrix.one_apply_ne ha]
    · simp only [twoQ, Matrix.of_apply, hoff, if_false]

theorem twoQ_unitary (a b : Fin 8) (hab : a ≠ b)
    (U : Matrix (Fin 2 × Fin 2) (Fin 2 × Fin 2) ℂ)
    (hU : Uᴴ * U = 1) : (twoQ a b U)ᴴ * twoQ a b U = 1 := by
  rw [twoQ_star, twoQ_mul a b hab, hU, twoQ_one]

theorem star_dotProduct_self (v : Bits → ℂ) :
    Matrix.dotProduct (star v) v = (sumNormSq v : ℂ) := by
  unfold Matrix.dotProduct sumNormSq
  rw [Complex.ofReal_sum]
  apply Finset.sum_congr rfl
  intro f _
  rw [Pi.star_apply, Complex.star_def, mul_comm, Complex.mul_conj]

/-- A matrix with `Mᴴ M = 1` preserves the squared-magnitude sum of any
vector it multiplies. -/
theorem unitary_mulVec_sumNormSq (M : Matrix Bits Bits ℂ) (hM : Mᴴ * M = 1)
    (v : Bits → ℂ) : sumNormSq (M.mulVec v) = sumNormSq v := by
  have h : Matrix.dotProduct (star (M.mulVec v)) (M.mulVec v) =
      Matrix.dotProduct (star v) v := by
    rw [Matrix.star_mulVec, Matrix.dotProduct_mulVec, Matrix.vecMul_vecMul, hM,
      Matrix.vecMul_one]
  rw [star_dotProduct_self, star_dotProduct_self] at h
  exact_mod_cast h

/-! ### Gate matrices

The matrices below are the semantics of the PennyLane operations the
notebook calls.  Those operations are implemented inside the `pennylane`
package, outside this repository; the matrices are modelled from their
documented standard definitions: `U3(θ,φ,δ)`, `RY(θ)`, `RZ(θ)` and
`CNOT`. -/

/-- Matrix of `qml.RY(t)`. -/
noncomputable def RYm (t : ℝ) : Matrix (Fin 2) (Fin 2) ℂ :=
  !![(Real.cos (t / 2) : ℂ), -(Real.sin (t / 2) : ℂ);
     (Real.sin (t / 2) : ℂ), (Real.cos (t / 2) : ℂ)]

/-- Matrix of `qml.RZ(t)`: `diag(exp(-i t/2), exp(i t/2))`. -/
noncomputable def RZm (t : ℝ) : Matrix (Fin 2) (Fin 2) ℂ :=
  !![Complex.exp (((-(t / 2) : ℝ) : ℂ) * Complex.I), 0;
     0, Complex.exp (((t / 2 : ℝ) : ℂ) * Complex.I)]

/-- The relative-phase matrix `diag(1, exp(i t))`, used to factor `U3`. -/
noncomputable def phaseM (t : ℝ) : Matrix (Fin 2) (Fin 2) ℂ :=
  !![1, 0; 0, Complex.exp ((t : ℂ) * Complex.I)]

/-- Matrix of `qml.U3(t, p, d)`. -/
noncomputable def U3m (t p d : ℝ) : Matrix (Fin 2) (Fin 2) ℂ :=
  !![(Real.cos (t / 2) : ℂ),
     -Complex.exp ((d : ℂ) * Complex.I) * Real.sin (t / 2);
     Complex.exp ((p : ℂ) * Complex.I) * Real.sin (t / 2),
     Complex.exp (((p + d : ℝ) : ℂ) * Complex.I) * Real.cos (t / 2)]

theorem star_exp_I_mul (t : ℝ) :
    star (Complex.exp ((t : ℂ) * Complex.I)) =
      Complex.exp (-((t : ℂ) * Complex.I)) := by
  rw [Complex.star_def, ← Complex.exp_conj]
  congr 1
  rw [map_mul, Complex.conj_ofReal, Complex.conj_I, mul_neg]

theorem star_exp_I_mul_self (t : ℝ) :
    star (Complex.exp ((t : ℂ) * Complex.I)) * Complex.exp ((t : ℂ) * Complex.I)
      = 1 := by
  rw [star_exp_I_mul, ← Complex.exp_add]
  norm_num

theorem sin_sq_add_cos_sq_complex (x : ℝ) :
    (Real.cos x : ℂ) * Real.cos x + (Real.sin x : ℂ) * Real.sin x = 1 := by
  norm_cast
  rw [← Real.sin_sq_add_cos_sq x]
  ring

theorem conjT_fin_two (a b c d : ℂ) :
    (!![a, b; c, d])ᴴ = !![star a, star c; star b, star d] := by
  ext i j
  fin_cases i <;> fin_cases j <;> simp [Matrix.conjTranspose_apply]

theorem RYm_unitary (t : ℝ) : (RYm t)ᴴ * RYm t = 1 := by
  have key := sin_sq_add_cos_sq_complex (t / 2)
  simp only [RYm]
  rw [conjT_fin_two, Matrix.mul_fin_two, Matrix.one_fin_two, ← Matrix.ext_iff]
  simp only [Fin.forall_fin_two, Matrix.of_apply, Matrix.cons_val_zero,
    Matrix.cons_val_one, Matrix.head_cons, star_neg, star_zero, star_one,
    Complex.star_def, Complex.conj_ofReal, map_zero, map_one]
  refine ⟨⟨?_, ?_⟩, ?_, ?_⟩ <;>
    first
      | linear_combination key
      | ring

theorem phaseM_unitary (t : ℝ) : (phaseM t)ᴴ * phaseM t = 1 := by
  have key := star_exp_I_mul_self t
  simp only [phaseM]
  rw [conjT_fin_two, Matrix.mul_fin_two, Matrix.one_fin_two, ← Matrix.ext_iff]
  simp only [Fin.forall_fin_two, Matrix.of_apply, Matrix.cons_val_zero,
    Matrix.cons_val_one, Matrix.head_cons, star_zero, star_one]
  refine ⟨⟨?_, ?_⟩, ?_, ?_⟩ <;>
    first
      | linear_combination key
      | ring

theorem RZm_unitary (t : ℝ) : (RZm t)ᴴ * RZm t = 1 := by
  have key1 := star_exp_I_mul_self (-(t / 2))
  have key2 := star_exp_I_mul_self (t / 2)
  simp only [RZm]
  rw [conjT_fin_two, Matrix.mul_fin_two, Matrix.one_fin_two, ← Matrix.ext_iff]
  simp only [Fin.forall_fin_two, Matrix.of_apply, Matrix.cons_val_zero,
    Matrix.cons_val_one, Matrix.head_cons, star_zero, star_one]
  refine ⟨⟨?_, ?_⟩, ?_, ?_⟩ <;>
    first
      | linear_combination key1
      | linear_combination key2
      | ring

theorem unitary_mul {n : Type} [Fintype n] [DecidableEq n]
    {A B : Matrix n n ℂ} (hA : Aᴴ * A = 1) (hB : Bᴴ * B = 1) :
    (A * B)ᴴ * (A * B) = 1 := by
  rw [Matrix.conjTranspose_mul, Matrix.mul_assoc, ← Matrix.mul_assoc Aᴴ A B, hA,
    Matrix.one_mul, hB]

theorem U3m_decomp (t p d : ℝ) : U3m t p d = phaseM p * RYm t * phaseM d := by
  simp only [U3m, phaseM, RYm]
  rw [Matrix.mul_fin_two, Matrix.mul_fin_two, ← Matrix.ext_iff]
  simp only [Fin.forall_fin_two, Matrix.of_apply, Matrix.cons_val_zero,
    Matrix.cons_val_one, Matrix.head_cons]
  refine ⟨⟨?_, ?_⟩, ?_, ?_⟩ <;>
    push_cast [add_mul, Complex.exp_add] <;>
    ring

theorem U3m_unitary (t p d : ℝ) : (U3m t p d)ᴴ * U3m t p d = 1 := by
  rw [U3m_decomp]
  exact unitary_mul (unitary_mul (phaseM_unitary p) (RYm_unitary t)) (phaseM_unitary d)

/-- The matrix of a basis permutation `e`: column `j` has a single 1 in
row `e j`. -/
noncomputable def permMat {α : Type} [Fintype α] [DecidableEq α]
    (e : Equiv.Perm α) : Matrix α α ℂ :=
  Matrix.of fun i j => if i = e j then 1 else 0

theorem permMat_unitary {α : Type} [Fintype α] [DecidableEq α]
    (e : Equiv.Perm α) : (permMat e)ᴴ * permMat e = 1 := by
  ext i j
  rw [Matrix.mul_apply]
  have step : ∀ k, (permMat e)ᴴ i k * permMat e k j =
      if k = e i then (if k = e j then (1 : ℂ) else 0) else 0 := by
    intro k
    rw [Matrix.conjTranspose_apply]
    simp only [permMat, Matrix.of_apply]
    by_cases h1 : k = e i <;> by_cases h2 : k = e j <;> simp [h1, h2]
  rw [Finset.sum_congr rfl (fun k _ => step k)]
  simp [Finset.sum_ite_eq', Equiv.apply_eq_iff_eq, Matrix.one_apply]

/-- The permutation `(c, t) -> (c, t XOR c)` realised by a CNOT whose
control is the first component. -/
def cnotPerm : Equiv.Perm (Fin 2 × Fin 2) :=
  ⟨fun q => (q.1, q.1 + q.2), fun q => (q.1, q.1 + q.2), by decide, by decide⟩

/-- Matrix of `qml.CNOT` with the control on the first index component. -/
noncomputable def CNOTm : Matrix (Fin 2 × Fin 2) (Fin 2 × Fin 2) ℂ :=
  permMat cnotPerm

/-- Wire label to register index; every wire the notebook uses is in
0..7, where the reduction modulo 8 is the identity. -/
def wfin (w : ℕ) : Fin 8 := ⟨w % 8, Nat.mod_lt w (by norm_num)⟩

/-- The register-level matrix of one queued PennyLane operation. -/
noncomputable def gateOp : Gate → Matrix Bits Bits ℂ
  | Gate.U3 t p d w => oneQ (wfin w) (U3m t p d)
  | Gate.CNOT c t => twoQ (wfin c) (wfin t) CNOTm
  | Gate.RY t w => oneQ (wfin w) (RYm t)
  | Gate.RZ t w => oneQ (wfin w) (RZm t)

/-- Applying a queued gate list to a state, first queued gate first. -/
noncomputable def applyGates (gs : List Gate) (v : Bits → ℂ) : Bits → ℂ :=
  gs.foldl (fun w g => (gateOp g).mulVec w) v

/-- A queued gate is valid when a two-wire gate has distinct wires (the
condition under which the device applies a genuine CNOT). -/
def Gate.valid : Gate → Prop
  | Gate.CNOT c t => wfin c ≠ wfin t
  | _ => True

theorem gateOp_unitary (g : Gate) (hg : g.valid) :
    (gateOp g)ᴴ * gateOp g = 1 := by
  cases g with
  | U3 t p d w => exact oneQ_unitary _ _ (U3m_unitary t p d)
  | CNOT c t => exact twoQ_unitary _ _ hg _ (permMat_unitary cnotPerm)
  | RY t w => exact oneQ_unitary _ _ (RYm_unitary t)
  | RZ t w => exact oneQ_unitary _ _ (RZm_unitary t)

theorem applyGates_nil (v : Bits → ℂ) : applyGates [] v = v := rfl

theorem applyGates_cons (g : Gate) (gs : List Gate) (v : Bits → ℂ) :
    applyGates (g :: gs) v = applyGates gs ((gateOp g).mulVec v) := rfl

theorem applyGates_append (gs1 gs2 : List Gate) (v : Bits → ℂ) :
    applyGates (gs1 ++ gs2) v = applyGates gs2 (applyGates gs1 v) := by
  simp [applyGates, List.foldl_append]

/-- Applying any list of valid gates preserves the squared-magnitude sum. -/
theorem applyGates_sumNormSq (gs : List Gate) (hv : ∀ g ∈ gs, g.valid)
    (v : Bits → ℂ) : sumNormSq (applyGates gs v) = sumNormSq v := by
  induction gs generalizing v with
  | nil => rfl
  | cons g gs ih =>
      rw [applyGates_cons,
        ih (fun g' hg' => hv g' (List.mem_cons_of_mem g hg')),
        unitary_mulVec_sumNormSq _ (gateOp_unitary g (hv g (List.mem_cons_self g gs)))]

theorem U_SU4_valid (p : Fin 15 → ℝ) (a b : ℕ) (hab : wfin a ≠ wfin b)
    (g : Gate) (hg : g ∈ U_SU4 p (a, b)) : g.valid := by
  simp only [U_SU4, List.mem_cons, List.not_mem_nil, or_false] at hg
  rcases hg with rfl|rfl|rfl|rfl|rfl|rfl|rfl|rfl|rfl|rfl
  · trivial
  · trivial
  · exact hab
  · trivial
  · trivial
  · exact hab.symm
  · trivial
  · exact hab
  · trivial
  · trivial

/-- Every gate queued by the full ansatz is valid: all thirteen wire
pairs have distinct wires. -/
theorem QCNN_circuit_valid (params : Fin 45 → ℝ) :
    ∀ g ∈ QCNN_structure_without_pooling U_SU4 params, g.valid := by
  rw [QCNN_structure_expand]
  simp only [List.forall_mem_append]
  repeat' apply And.intro
  all_goals exact fun g hg => U_SU4_valid _ _ _ (by decide) g hg

/-! ### Amplitude embedding and measurement -/

open Kronecker

/-- Big-endian index of a basis label: wire 0 is the most significant
bit, as in PennyLane's computational-basis ordering for `wires=range(8)`. -/
def basisIndex : Bits ≃ Fin 256 :=
  (Equiv.arrowCongr Fin.revPerm (Equiv.refl (Fin 2))).trans
    (finFunctionFinEquiv.trans (finCongr (by norm_num)))

/-- Squared Euclidean norm of a 256-entry feature vector. -/
noncomputable def sqNorm (X : Fin 256 → ℝ) : ℝ := ∑ i, X i ^ 2

/-- The amplitude-encoded state: the feature vector divided by its
Euclidean norm, one real amplitude per basis label. -/
noncomputable def embedState (X : Fin 256 → ℝ) : Bits → ℂ :=
  fun f => ((X (basisIndex f) / Real.sqrt (sqNorm X) : ℝ) : ℂ)

/-- `data_embedding(X)`, i.e. `qml.AmplitudeEmbedding(X, wires=range(8),
normalize=True)`.  Modelled from the spec: the `AmplitudeEmbedding`
operation lives in the pennylane package, outside this repository; the
spec requires L2 normalization and an invalid-input failure on a
zero-norm vector, modelled as `none`. -/
noncomputable def data_embedding (X : Fin 256 → ℝ) : Option (Bits → ℂ) :=
  if sqNorm X = 0 then none else some (embedState X)

theorem sqNorm_nonneg (X : Fin 256 → ℝ) : 0 ≤ sqNorm X :=
  Finset.sum_nonneg fun i _ => sq_nonneg (X i)

theorem embedState_sumNormSq (X : Fin 256 → ℝ) (hX : sqNorm X ≠ 0) :
    sumNormSq (embedState X) = 1 := by
  unfold sumNormSq embedState
  have h1 : ∀ f : Bits,
      Complex.normSq ((X (basisIndex f) / Real.sqrt (sqNorm X) : ℝ) : ℂ) =
        X (basisIndex f) ^ 2 / sqNorm X := by
    intro f
    rw [Complex.normSq_ofReal, div_mul_div_comm,
      Real.mul_self_sqrt (sqNorm_nonneg X), ← pow_two]
  rw [Finset.sum_congr rfl (fun f _ => h1 f), ← Finset.sum_div,
    Equiv.sum_comp basisIndex (fun i => X i ^ 2)]
  exact div_self hX

/-- `qml.expval(qml.PauliZ(w))` on a state: the signed sum of squared
magnitudes, sign `+1` where the bit at wire `w` is 0 and `-1` where it
is 1. -/
noncomputable def expvalZ (w : Fin 8) (v : Bits → ℂ) : ℝ :=
  ∑ f : Bits, (if f w = 0 then 1 else -1) * Complex.normSq (v f)

theorem expvalZ_abs_le (w : Fin 8) (v : Bits → ℂ) :
    |expvalZ w v| ≤ sumNormSq v := by
  unfold expvalZ sumNormSq
  calc |∑ f : Bits, (if f w = 0 then (1 : ℝ) else -1) * Complex.normSq (v f)|
      ≤ ∑ f : Bits, |(if f w = 0 then (1 : ℝ) else -1) * Complex.normSq (v f)| :=
        Finset.abs_sum_le_sum_abs _ _
    _ = ∑ f : Bits, Complex.normSq (v f) := by
        apply Finset.sum_congr rfl
        intro f _
        rw [abs_mul]
        by_cases h : f w = 0 <;>
          simp [h, abs_of_nonneg (Complex.normSq_nonneg (v f))]

/-- The expectation value the qnode computes when the embedding
succeeds. -/
noncomputable def QCNNval (X : Fin 256 → ℝ) (params : Fin 45 → ℝ) : ℝ :=
  expvalZ 4 (applyGates (QCNN_structure_without_pooling U_SU4 params) (embedState X))

/-- The qnode `QCNN(X, params)`: data embedding, the three-layer ansatz,
then `qml.expval(qml.PauliZ(4))`. -/
noncomputable def QCNN (X : Fin 256 → ℝ) (params : Fin 45 → ℝ) : Option ℝ :=
  (data_embedding X).map
    (fun v => expvalZ 4 (applyGates (QCNN_structure_without_pooling U_SU4 params) v))

theorem QCNN_eq_some (X : Fin 256 → ℝ) (params : Fin 45 → ℝ)
    (hX : sqNorm X ≠ 0) : QCNN X params = some (QCNNval X params) := by
  rw [QCNN, data_embedding, if_neg hX]
  rfl

/-- C3: for every feature vector with nonzero norm and every 45-entry
parameter vector, the end-to-end circuit returns the Pauli-Z expectation
on wire 4, a real number in [-1, 1] (and it is a plain function of its
two arguments). -/
theorem C3_expectation_in_range (X : Fin 256 → ℝ) (params : Fin 45 → ℝ)
    (hX : sqNorm X ≠ 0) :
    ∃ r, QCNN X params = some r ∧ -1 ≤ r ∧ r ≤ 1 := by
  have hnorm : sumNormSq (applyGates (QCNN_structure_without_pooling U_SU4 params)
      (embedState X)) = 1 := by
    rw [applyGates_sumNormSq _ (QCNN_circuit_valid params),
      embedState_sumNormSq X hX]
  have habs := expvalZ_abs_le 4
    (applyGates (QCNN_structure_without_pooling U_SU4 params) (embedState X))
  rw [hnorm] at habs
  obtain ⟨h1, h2⟩ := abs_le.mp habs
  exact ⟨QCNNval X params, QCNN_eq_some X params hX, h1, h2⟩

/-- The all-ones feature vector, used as a concrete witness input. -/
def onesFeat : Fin 256 → ℝ := fun _ => 1

theorem sqNorm_onesFeat : sqNorm onesFeat = 256 := by
  unfold sqNorm onesFeat
  rw [Finset.sum_congr rfl (fun i _ => one_pow 2), Finset.sum_const,
    Finset.card_univ, Fintype.card_fin, nsmul_eq_mul]
  norm_num

/-- Witness for C3 at a concrete input. -/
theorem C3_expectation_in_range_witness :
    ∃ r, QCNN onesFeat (fun _ => 0) = some r ∧ -1 ≤ r ∧ r ≤ 1 :=
  C3_expectation_in_range onesFeat (fun _ => 0)
    (by rw [sqNorm_onesFeat]; norm_num)

/-- C5: unit squared-magnitude sum is an invariant: applying the
two-qubit block on any pair of distinct wires to any unit-norm state
yields a unit-norm state, and after any prefix of the full circuit (from
the embedding through the last layer) the state still has squared
magnitudes summing to 1. -/
theorem C5_norm_invariant :
    (∀ (v : Bits → ℂ) (p : Fin 15 → ℝ) (a b : ℕ), wfin a ≠ wfin b →
        sumNormSq v = 1 → sumNormSq (applyGates (U_SU4 p (a, b)) v) = 1) ∧
    (∀ (X : Fin 256 → ℝ) (params : Fin 45 → ℝ) (gs : List Gate),
        sqNorm X ≠ 0 → gs <+: QCNN_structure_without_pooling U_SU4 params →
        sumNormSq (applyGates gs (embedState X)) = 1) := by
  constructor
  · intro v p a b hab hv
    rw [applyGates_sumNormSq _ (U_SU4_valid p a b hab), hv]
  · intro X params gs hX hpre
    have hvalid : ∀ g ∈ gs, g.valid := fun g hg =>
      QCNN_circuit_valid params g (hpre.sublist.subset hg)
    rw [applyGates_sumNormSq _ hvalid, embedState_sumNormSq X hX]

/-- Witness for C5 at concrete inputs: one block application on wires
(0,1), and the full circuit as a prefix of itself. -/
theorem C5_norm_invariant_witness :
    sumNormSq (applyGates (U_SU4 (fun _ => 0) (0, 1)) (embedState onesFeat)) = 1 ∧
    sumNormSq (applyGates
      (QCNN_structure_without_pooling U_SU4 (fun _ => 0))
      (embedState onesFeat)) = 1 :=
  ⟨C5_norm_invariant.1 (embedState onesFeat) (fun _ => 0) 0 1 (by decide)
      (embedState_sumNormSq onesFeat (by rw [sqNorm_onesFeat]; norm_num)),
    C5_norm_invariant.2 onesFeat (fun _ => 0) _
      (by rw [sqNorm_onesFeat]; norm_num) (List.prefix_refl _)⟩

/-- C6: the embedding divides the 256-entry feature vector by its
Euclidean norm, giving a state with real amplitudes (zero imaginary
parts) proportional to the input and squared-amplitude sum 1; a
zero-norm input fails with an invalid-input error instead of returning a
state. -/
theorem C6_embedding (X : Fin 256 → ℝ) :
    (sqNorm X = 0 → data_embedding X = none) ∧
    (sqNorm X ≠ 0 → ∃ v, data_embedding X = some v ∧
      (∀ f, (v f).im = 0 ∧ (v f).re = X (basisIndex f) / Real.sqrt (sqNorm X)) ∧
      sumNormSq v = 1) := by
  constructor
  · intro h
    rw [data_embedding, if_pos h]
  · intro h
    refine ⟨embedState X, by rw [data_embedding, if_neg h], ?_,
      embedState_sumNormSq X h⟩
    intro f
    constructor
    · simp [embedState]
    · simp [embedState]

/-- Witness for C6 at concrete inputs: the zero vector and the all-ones
vector. -/
theorem C6_embedding_witness :
    data_embedding (fun _ => 0) = none ∧
    (∃ v, data_embedding onesFeat = some v ∧
      (∀ f, (v f).im = 0 ∧
        (v f).re = onesFeat (basisIndex f) / Real.sqrt (sqNorm onesFeat)) ∧
      sumNormSq v = 1) :=
  ⟨(C6_embedding (fun _ => 0)).1 (by simp [sqNorm]),
    (C6_embedding onesFeat).2 (by rw [sqNorm_onesFeat]; norm_num)⟩

/-! ### The two-qubit block as a 4x4 matrix -/

theorem kron_conjTranspose (A B : Matrix (Fin 2) (Fin 2) ℂ) :
    (A ⊗ₖ B)ᴴ = Aᴴ ⊗ₖ Bᴴ := by
  ext p q
  simp [Matrix.conjTranspose_apply, Matrix.kroneckerMap_apply, star_mul',
    mul_comm]

theorem kron_unitary {A B : Matrix (Fin 2) (Fin 2) ℂ} (hA : Aᴴ * A = 1)
    (hB : Bᴴ * B = 1) : (A ⊗ₖ B)ᴴ * (A ⊗ₖ B) = 1 := by
  rw [kron_conjTranspose, ← Matrix.mul_kronecker_mul, hA, hB,
    Matrix.one_kronecker_one]

theorem one2_unitary : ((1 : Matrix (Fin 2) (Fin 2) ℂ))ᴴ * 1 = 1 := by
  simp

/-- The permutation `(t, c) -> (t XOR c, c)` realised by a CNOT whose
control is the second index component. -/
def cnotPerm' : Equiv.Perm (Fin 2 × Fin 2) :=
  ⟨fun q => (q.1 + q.2, q.2), fun q => (q.1 + q.2, q.2), by decide, by decide⟩

/-- Matrix of `qml.CNOT` with the control on the second index component,
as used by the middle `qml.CNOT(wires=[wires[1], wires[0]])` of `U_SU4`. -/
noncomputable def CNOTm' : Matrix (Fin 2 × Fin 2) (Fin 2 × Fin 2) ℂ :=
  permMat cnotPerm'

/-- The 4x4 matrix of the two-qubit block `U_SU4` on its own two wires
(first index component = `wires[0]`, second = `wires[1]`): the product
of its ten gate matrices, the last-applied gate leftmost. -/
noncomputable def su4Matrix (p : Fin 15 → ℝ) :
    Matrix (Fin 2 × Fin 2) (Fin 2 × Fin 2) ℂ :=
  (1 ⊗ₖ U3m (p 12) (p 13) (p 14)) * (U3m (p 9) (p 10) (p 11) ⊗ₖ 1) * CNOTm *
    (RYm (p 8) ⊗ₖ 1) * CNOTm' * (1 ⊗ₖ RZm (p 7)) * (RYm (p 6) ⊗ₖ 1) * CNOTm *
    (1 ⊗ₖ U3m (p 3) (p 4) (p 5)) * (U3m (p 0) (p 1) (p 2) ⊗ₖ 1)

/-- C4: for every real 15-entry parameter vector, the 4x4 matrix of the
two-qubit block is unitary: its conjugate transpose times itself is the
identity, exactly, over the exact reals. -/
theorem C4_su4Matrix_unitary (p : Fin 15 → ℝ) :
    (su4Matrix p)ᴴ * su4Matrix p = 1 := by
  unfold su4Matrix
  exact unitary_mul (unitary_mul (unitary_mul (unitary_mul (unitary_mul
    (unitary_mul (unitary_mul (unitary_mul (unitary_mul
      (kron_unitary one2_unitary (U3m_unitary _ _ _))
      (kron_unitary (U3m_unitary _ _ _) one2_unitary))
      (permMat_unitary cnotPerm))
      (kron_unitary (RYm_unitary _) one2_unitary))
      (permMat_unitary cnotPerm'))
      (kron_unitary one2_unitary (RZm_unitary _)))
      (kron_unitary (RYm_unitary _) one2_unitary))
      (permMat_unitary cnotPerm))
      (kron_unitary one2_unitary (U3m_unitary _ _ _)))
      (kron_unitary (U3m_unitary _ _ _) one2_unitary)

/-- `cost(params, X, Y)`: evaluates the qnode on every feature vector of
the batch and passes the labels and predictions to `square_loss`; a
failed embedding propagates as `none`, as a Python exception would. -/
noncomputable def cost (params : Fin 45 → ℝ) (X : List (Fin 256 → ℝ))
    (Y : List ℝ) : Option ℝ := do
  let predictions ← X.mapM (fun x => QCNN x params)
  square_loss Y predictions

theorem mapM_QCNN (params : Fin 45 → ℝ) (X : List (Fin 256 → ℝ))
    (hX : ∀ x ∈ X, sqNorm x ≠ 0) :
    X.mapM (fun x => QCNN x params) =
      some (X.map (fun x => QCNNval x params)) := by
  induction X with
  | nil => rfl
  | cons x xs ih =>
      rw [List.mapM_cons, QCNN_eq_some x params (hX x (List.mem_cons_self x xs)),
        ih (fun y hy => hX y (List.mem_cons_of_mem x hy))]
      rfl

/-- C7: on a non-empty batch of (feature, label) pairs whose features
embed (nonzero norm) and whose labels are in {0,1}, the cost is exactly
the mean over the batch of the squared difference between the circuit's
expectation value and the label. -/
theorem C7_cost_is_mse (params : Fin 45 → ℝ) (X : List (Fin 256 → ℝ))
    (Y : List ℝ) (hlen : X.length = Y.length) (hne : Y ≠ [])
    (hX : ∀ x ∈ X, sqNorm x ≠ 0) (hY : ∀ y ∈ Y, y = 0 ∨ y = 1) :
    cost params X Y = some
      ((((Y.zip (X.map (fun x => QCNNval x params))).map
          (fun lp => (lp.2 - lp.1) ^ 2)).sum) / (Y.length : ℝ)) := by
  have hlen0 : Y.length ≠ 0 := by
    simpa using List.length_pos.mpr hne |>.ne'
  rw [cost]
  rw [mapM_QCNN params X hX]
  show square_loss Y (X.map fun x => QCNNval x params) = _
  rw [square_loss, if_neg hlen0, foldl_add_sq, zero_add]
  have hswap : (fun lp : ℝ × ℝ => (lp.1 - lp.2) ^ 2) =
      (fun lp : ℝ × ℝ => (lp.2 - lp.1) ^ 2) := by
    funext lp
    ring
  rw [hswap]

/-- Witness for C7 at a concrete one-example batch. -/
theorem C7_cost_is_mse_witness :
    cost (fun _ => 0) [onesFeat] [1] = some
      (((([(1 : ℝ)].zip ([onesFeat].map (fun x => QCNNval x (fun _ => 0)))).map
          (fun lp => (lp.2 - lp.1) ^ 2)).sum) / (([(1 : ℝ)]).length : ℝ)) :=
  C7_cost_is_mse (fun _ => 0) [onesFeat] [1] rfl (by simp)
    (fun x hx => by
      rw [List.mem_singleton] at hx
      subst hx
      rw [sqNorm_onesFeat]
      norm_num)
    (fun y hy => Or.inr (by simpa using hy))
